import Mathlib

/-
Verification of the file-transfer engine of this repository.

The sender side lives in frontend/src/hooks/useFileTransfer.js
(sendFile / processFileQueue / sendFileActual / sendFileToChannel / sendBatch
/ initFileReceive); the receiver side and the per-peer event queue live in
the main application component (handleMessage / handleBinaryChunk /
createEventQueue).  Byte payloads are modelled as `List Nat`, ArrayBuffer
slicing as `List.drop` / `List.take`, and the JavaScript objects used as
maps as association lists (insertion-ordered, like `for..in` iteration) or
as functions updated pointwise.
-/

/-- Chunk count computed by the sender:
`const totalChunks = Math.ceil(file.size / chunkSize)` in sendFileActual and
`const totalChunksCount = Math.ceil(arrayBuffer.byteLength / chunkSize)` in
sendFileToChannel (ceiling division on naturals). -/
def totalChunks (len chunkSize : Nat) : Nat := (len + chunkSize - 1) / chunkSize

/-- Chunk sequence produced by the sender's batched send loop in sendBatch:
chunk number `i` is `arrayBuffer.slice(i * chunkSize, min ((i+1) * chunkSize)
byteLength)`, for `i` ranging over `0 .. totalChunksCount - 1` in order. -/
def split (payload : List Nat) (chunkSize : Nat) : List (List Nat) :=
  (List.range (totalChunks payload.length chunkSize)).map
    (fun i => (payload.drop (i * chunkSize)).take chunkSize)

/-- Receiver-side reassembly: `new Blob(transfer.chunks, ...)` concatenates the
stored chunks in arrival order (handleSignal / handleMessage, file-done
branch). -/
def assemble (chunks : List (List Nat)) : List Nat := chunks.flatten

lemma totalChunks_nil (C : Nat) (hC : 0 < C) : totalChunks 0 C = 0 := by
  unfold totalChunks
  exact Nat.div_eq_of_lt (by omega)

lemma totalChunks_step (n C : Nat) (hn : 1 ≤ n) (hC : 0 < C) :
    totalChunks n C = totalChunks (n - C) C + 1 := by
  unfold totalChunks
  rcases le_or_lt C n with h | h
  · obtain ⟨m, rfl⟩ : ∃ m, n = m + C := ⟨n - C, by omega⟩
    have hmc : m + C - C = m := by omega
    have h1 : m + C + C - 1 = (m + C - 1) + C := by omega
    rw [hmc, h1, Nat.add_div_right _ hC]
  · have h0 : n - C = 0 := by omega
    rw [h0]
    have hl : (C - 1) / C = 0 := Nat.div_eq_of_lt (by omega)
    have hr : (n + C - 1) / C = 1 := by
      apply Nat.div_eq_of_lt_le
      · omega
      · omega
    simp [hr, hl]

lemma split_nil (C : Nat) (hC : 0 < C) : split [] C = [] := by
  simp [split, totalChunks_nil C hC]

lemma split_cons (p : List Nat) (C : Nat) (hC : 0 < C) (hp : p ≠ []) :
    split p C = p.take C :: split (p.drop C) C := by
  have hlen : 1 ≤ p.length := List.length_pos.mpr hp
  unfold split
  rw [totalChunks_step p.length C hlen hC, List.range_succ_eq_map, List.map_cons,
    List.map_map, List.length_drop]
  congr 1
  · simp
  · apply List.map_congr_left
    intro i _
    simp only [Function.comp_apply]
    rw [List.drop_drop]
    congr 2
    rw [Nat.succ_mul]
    omega

lemma split_flatten_bounded (C : Nat) (hC : 0 < C) :
    ∀ (n : Nat) (p : List Nat), p.length ≤ n → (split p C).flatten = p := by
  intro n
  induction n with
  | zero =>
    intro p hp
    have : p = [] := by
      cases p with
      | nil => rfl
      | cons a l => simp at hp
    subst this
    rw [split_nil C hC]
    rfl
  | succ n ih =>
    intro p hp
    by_cases hpe : p = []
    · subst hpe
      rw [split_nil C hC]
      rfl
    · rw [split_cons p C hC hpe]
      have hlen : 1 ≤ p.length := List.length_pos.mpr hpe
      have hdrop : (p.drop C).length ≤ n := by
        rw [List.length_drop]
        omega
      rw [List.flatten_cons, ih (p.drop C) hdrop]
      exact List.take_append_drop C p

lemma split_flatten (p : List Nat) (C : Nat) (hC : 0 < C) :
    (split p C).flatten = p :=
  split_flatten_bounded C hC p.length p le_rfl

lemma split_getD (p : List Nat) (C i : Nat) (hi : i < totalChunks p.length C) :
    (split p C).getD i [] = (p.drop (i * C)).take C := by
  unfold split
  rw [List.getD_eq_getElem?_getD, List.getElem?_map, List.getElem?_range hi]
  rfl

/-- C1: for every payload P and chunkSize C with 1 ≤ C ≤ len(P), the sender's
chunking in sendBatch produces exactly ceil(len(P)/C) chunks in original
order, each of length C except a possibly shorter last chunk, and
concatenating the chunks in order (the receiver's Blob reassembly)
reconstructs P exactly. -/
theorem chunk_roundtrip (p : List Nat) (C : Nat) (h1 : 1 ≤ C) (_h2 : C ≤ p.length) :
    (split p C).length = totalChunks p.length C ∧
    assemble (split p C) = p ∧
    (∀ i, i + 1 < totalChunks p.length C → ((split p C).getD i []).length = C) ∧
    (∀ i, i < totalChunks p.length C → ((split p C).getD i []).length ≤ C) := by
  have hC : 0 < C := h1
  refine ⟨?_, ?_, ?_, ?_⟩
  · simp [split]
  · exact split_flatten p C hC
  · intro i hi
    rw [split_getD p C i (by omega)]
    have h3 : i + 2 ≤ totalChunks p.length C := by omega
    have h4 : (i + 2) * C ≤ p.length + C - 1 :=
      (Nat.le_div_iff_mul_le hC).mp h3
    rw [Nat.add_mul] at h4
    simp only [List.length_take, List.length_drop]
    omega
  · intro i hi
    rw [split_getD p C i hi]
    simp only [List.length_take, List.length_drop]
    omega

/-- Witness for chunk_roundtrip at p = [0,1,2,3,4], C = 2. -/
theorem chunk_roundtrip_witness :
    assemble (split [0, 1, 2, 3, 4] 2) = [0, 1, 2, 3, 4] ∧
    (split [0, 1, 2, 3, 4] 2).length = totalChunks 5 2 :=
  ⟨(chunk_roundtrip [0, 1, 2, 3, 4] 2 (by decide) (by decide)).2.1,
   (chunk_roundtrip [0, 1, 2, 3, 4] 2 (by decide) (by decide)).1⟩

/-
ChunkCodec hashing.  The sender computes the content hash once over the whole
payload before any chunk is sent:
`const wordArray = CryptoJS.lib.WordArray.create(arrayBuffer);`
`const md5Hash = CryptoJS.MD5(wordArray).toString(CryptoJS.enc.Base64);`
in sendFileActual.  The receiver keeps an incremental accumulator
`hasher: CryptoJS.algo.MD5.create()` (initFileReceive), folds every arriving
chunk into it with `transfer.hasher.update(CryptoJS.lib.WordArray.create(chunk))`
(handleBinaryChunk) and finalizes with `transfer.hasher.finalize()` on
file-done.  The external CryptoJS streaming API is modelled by its absorbed
byte sequence: updating appends the chunk's bytes, and finalizing applies the
(abstract) MD5 compression `md5` to the absorbed bytes, which for the one-shot
call `CryptoJS.MD5(wordArray)` is the whole payload.  Hash values are
modelled as `List Nat` (the code compares Base64 strings).
-/

/-- Incremental hash accumulator state: the bytes absorbed so far. -/
def hasherUpdate (st chunk : List Nat) : List Nat := st ++ chunk

/-- Finalizing the incremental accumulator applies the hash compression to the
absorbed bytes. -/
def hasherFinalize (md5 : List Nat → List Nat) (st : List Nat) : List Nat := md5 st

/-- One-shot digest of a whole payload, as computed by the sender in
sendFileActual before any chunk is sent. -/
def digest (md5 : List Nat → List Nat) (payload : List Nat) : List Nat := md5 payload

lemma foldl_hasherUpdate (l : List (List Nat)) :
    ∀ acc : List Nat, l.foldl hasherUpdate acc = acc ++ l.flatten := by
  induction l with
  | nil => intro acc; simp
  | cons a l ih =>
    intro acc
    simp only [List.foldl_cons, List.flatten_cons, hasherUpdate]
    rw [ih (acc ++ a), List.append_assoc]

/-- C2: the content hash is deterministic and independent of chunking; folding
the chunks of split(P, C) in order into the receiver's incremental accumulator
and finalizing yields exactly the digest the sender computed once over the
entire payload. -/
theorem hash_chunk_independent (md5 : List Nat → List Nat) (p : List Nat) (C : Nat)
    (hC : 1 ≤ C) :
    hasherFinalize md5 ((split p C).foldl hasherUpdate []) = digest md5 p := by
  rw [foldl_hasherUpdate, List.nil_append, split_flatten p C hC]
  rfl

/-- Witness for hash_chunk_independent with md5 = reverse, p = [5,6,7], C = 2. -/
theorem hash_chunk_independent_witness :
    hasherFinalize List.reverse ((split [5, 6, 7] 2).foldl hasherUpdate []) =
      digest List.reverse [5, 6, 7] :=
  hash_chunk_independent List.reverse [5, 6, 7] 2 (by decide)

/-
Inbound transfers.  initFileReceive stores, per remote peer, an
insertion-ordered map from fileId to
`{ meta, received: 0, chunks: [], hasher: CryptoJS.algo.MD5.create(), ... }`.
handleBinaryChunk walks that map in insertion order (`for..in`), deletes
cancelled entries, and applies the arriving chunk to the first entry whose
`received` is still below `meta.size`, then breaks.  The cancelled flags live
in transferControlRef under key `down-fileId` and are modelled as a predicate
on fileIds.
-/

structure InTransfer where
  name : String
  size : Nat
  received : Nat
  absorbed : List Nat
  chunks : List (List Nat)
deriving Repr, DecidableEq

/-- Application of one binary chunk to one inbound transfer (handleBinaryChunk
body): `transfer.hasher.update(...)`, `transfer.chunks.push(chunk)`,
`transfer.received += chunk.byteLength`. -/
def applyChunk (t : InTransfer) (chunk : List Nat) : InTransfer :=
  { t with
      absorbed := t.absorbed ++ chunk
      chunks := t.chunks ++ [chunk]
      received := t.received + chunk.length }

/-- Object key access `transfers[fileId]` on the insertion-ordered map. -/
def findTransfer (fid : String) : List (String × InTransfer) → Option InTransfer
  | [] => none
  | (k, t) :: rest => if k = fid then some t else findTransfer fid rest

/-- Object key deletion `delete transfers[fileId]`. -/
def eraseTransfer (fid : String) : List (String × InTransfer) → List (String × InTransfer)
  | [] => []
  | (k, t) :: rest => if k = fid then rest else (k, t) :: eraseTransfer fid rest

/-- Receiver handler for a binary frame (handleBinaryChunk): iterate the
per-peer transfers in insertion order; a cancelled entry is deleted and the
walk continues; the chunk is applied to the first entry with
`received < meta.size` and the walk stops; a byte-complete entry is skipped. -/
def handleBinaryChunk (cancelled : String → Bool) (chunk : List Nat) :
    List (String × InTransfer) → List (String × InTransfer)
  | [] => []
  | (fid, t) :: rest =>
    if cancelled fid then handleBinaryChunk cancelled chunk rest
    else if t.received < t.size then (fid, applyChunk t chunk) :: rest
    else (fid, t) :: handleBinaryChunk cancelled chunk rest

/-- Outcome of the file-done control message at the receiver. -/
inductive DoneOutcome where
  | noTransfer : DoneOutcome
  | verified : String → List Nat → DoneOutcome
  | corrupt : String → DoneOutcome
deriving Repr, DecidableEq

/-- Receiver handler for `file-done {fileId, hash}` (handleMessage, file-done
branch): look the transfer up; finalize the incremental hash and compare with
the announced hash; on a match build the Blob from the stored chunks and
delete the entry; on a mismatch log and alert `File corrupted: name` - the
entry is left in the map. -/
def handleFileDone (md5 : List Nat → List Nat) (transfers : List (String × InTransfer))
    (fileId : String) (announced : List Nat) : DoneOutcome × List (String × InTransfer) :=
  match findTransfer fileId transfers with
  | none => (DoneOutcome.noTransfer, transfers)
  | some t =>
    if hasherFinalize md5 t.absorbed = announced then
      (DoneOutcome.verified t.name t.chunks.flatten, eraseTransfer fileId transfers)
    else
      (DoneOutcome.corrupt t.name, transfers)

/-- Concrete inbound transfer used as witness data. -/
def inT0 : InTransfer := ⟨"a.txt", 3, 3, [1, 2, 3], [[1, 2, 3]]⟩

/-- C3 counterexample: on a file-done whose announced hash differs from the
computed hash, the handler reports corruption but the inbound transfer entry
is NOT removed from the map - lookup still finds the partial data, refuting
"discards the partial data (the inbound transfer state is removed)". -/
theorem filedone_mismatch_keeps_state :
    (handleFileDone id [("f1", inT0)] "f1" [9, 9]).1 = DoneOutcome.corrupt "a.txt" ∧
    findTransfer "f1" (handleFileDone id [("f1", inT0)] "f1" [9, 9]).2 = some inT0 := by
  constructor <;> rfl

/-- C3 (amended): on a file-done whose announced hash differs from the
computed hash, the receiver surfaces a corruption error identifying the file
by name, but the inbound transfer entry is retained (not discarded); and,
for a collision-free digest, a delivery whose absorbed bytes differ from the
payload the sender hashed is never reported Verified. -/
theorem filedone_mismatch_behavior (md5 : List Nat → List Nat)
    (transfers : List (String × InTransfer)) (fid : String) (t : InTransfer)
    (hl : findTransfer fid transfers = some t) :
    (∀ announced, hasherFinalize md5 t.absorbed ≠ announced →
      handleFileDone md5 transfers fid announced = (DoneOutcome.corrupt t.name, transfers)) ∧
    (Function.Injective md5 → ∀ P : List Nat, t.absorbed ≠ P →
      ∀ nm blob, (handleFileDone md5 transfers fid (digest md5 P)).1 ≠
        DoneOutcome.verified nm blob) := by
  constructor
  · intro announced hm
    simp [handleFileDone, hl, hm]
  · intro hinj P hne nm blob
    have hm : hasherFinalize md5 t.absorbed ≠ digest md5 P := fun h => hne (hinj h)
    simp [handleFileDone, hl, hm]

/-- Witness for filedone_mismatch_behavior with the identity digest. -/
theorem filedone_mismatch_behavior_witness :
    handleFileDone id [("f1", inT0)] "f1" [0] = (DoneOutcome.corrupt "a.txt", [("f1", inT0)]) ∧
    (handleFileDone id [("f1", inT0)] "f1" (digest id [7])).1 ≠
      DoneOutcome.verified "a.txt" [1, 2, 3] :=
  ⟨(filedone_mismatch_behavior id [("f1", inT0)] "f1" inT0 rfl).1 [0] (by decide),
   (filedone_mismatch_behavior id [("f1", inT0)] "f1" inT0 rfl).2
     (fun _ _ h => h) [7] (by decide) "a.txt" [1, 2, 3]⟩

lemma findTransfer_not_mem (fid : String) (l : List (String × InTransfer))
    (h : fid ∉ l.map Prod.fst) : findTransfer fid l = none := by
  induction l with
  | nil => rfl
  | cons a rest ih =>
    obtain ⟨k, u⟩ := a
    simp only [List.map_cons, List.mem_cons] at h
    push_neg at h
    unfold findTransfer
    rw [if_neg (fun he => h.1 he.symm)]
    exact ih h.2

lemma handleBinaryChunk_keys_subset (c : String → Bool) (ch : List Nat)
    (l : List (String × InTransfer)) :
    ∀ k, k ∈ (handleBinaryChunk c ch l).map Prod.fst → k ∈ l.map Prod.fst := by
  induction l with
  | nil => intro k hk; exact hk
  | cons a rest ih =>
    obtain ⟨k0, u⟩ := a
    intro k hk
    cases hc : c k0 with
    | true =>
      simp only [handleBinaryChunk, hc, if_true] at hk
      simp only [List.map_cons, List.mem_cons]
      exact Or.inr (ih k hk)
    | false =>
      by_cases hlt : u.received < u.size
      · simp only [handleBinaryChunk, hc, if_pos hlt, Bool.false_eq_true, if_false] at hk
        simpa using hk
      · simp only [handleBinaryChunk, hc, if_neg hlt, Bool.false_eq_true, if_false,
          List.map_cons, List.mem_cons] at hk
        simp only [List.map_cons, List.mem_cons]
        rcases hk with h | h
        · exact Or.inl h
        · exact Or.inr (ih k h)

lemma handleBinaryChunk_received_mono (c : String → Bool) (ch : List Nat) :
    ∀ (l : List (String × InTransfer)) (fid : String) (t t' : InTransfer),
      (l.map Prod.fst).Nodup →
      findTransfer fid l = some t →
      findTransfer fid (handleBinaryChunk c ch l) = some t' →
      t.received ≤ t'.received := by
  intro l
  induction l with
  | nil =>
    intro fid t t' _ hf _
    exact absurd hf (by simp [findTransfer])
  | cons a rest ih =>
    obtain ⟨k, u⟩ := a
    intro fid t t' hnd hf hf'
    have hnd' : (rest.map Prod.fst).Nodup := (List.nodup_cons.mp hnd).2
    have hknotin : k ∉ rest.map Prod.fst := (List.nodup_cons.mp hnd).1
    by_cases hk : k = fid
    · subst hk
      have ht : t = u := by
        unfold findTransfer at hf
        rw [if_pos rfl] at hf
        exact (Option.some.inj hf).symm
      rw [ht]
      cases hc : c k with
      | true =>
        rw [show handleBinaryChunk c ch ((k, u) :: rest) = handleBinaryChunk c ch rest by
          simp [handleBinaryChunk, hc]] at hf'
        have hnone : findTransfer k (handleBinaryChunk c ch rest) = none :=
          findTransfer_not_mem k _
            (fun hmem => hknotin (handleBinaryChunk_keys_subset c ch rest k hmem))
        rw [hnone] at hf'
        exact absurd hf' (by simp)
      | false =>
        by_cases hlt : u.received < u.size
        · rw [show handleBinaryChunk c ch ((k, u) :: rest) = (k, applyChunk u ch) :: rest by
            simp [handleBinaryChunk, hc, hlt]] at hf'
          unfold findTransfer at hf'
          rw [if_pos rfl] at hf'
          rw [show t' = applyChunk u ch from (Option.some.inj hf').symm]
          simp [applyChunk]
        · rw [show handleBinaryChunk c ch ((k, u) :: rest) =
              (k, u) :: handleBinaryChunk c ch rest by
            simp [handleBinaryChunk, hc, hlt]] at hf'
          unfold findTransfer at hf'
          rw [if_pos rfl] at hf'
          rw [show t' = u from (Option.some.inj hf').symm]
    · have hfr : findTransfer fid rest = some t := by
        unfold findTransfer at hf
        rwa [if_neg hk] at hf
      cases hc : c k with
      | true =>
        rw [show handleBinaryChunk c ch ((k, u) :: rest) = handleBinaryChunk c ch rest by
          simp [handleBinaryChunk, hc]] at hf'
        exact ih fid t t' hnd' hfr hf'
      | false =>
        by_cases hlt : u.received < u.size
        · rw [show handleBinaryChunk c ch ((k, u) :: rest) = (k, applyChunk u ch) :: rest by
            simp [handleBinaryChunk, hc, hlt]] at hf'
          unfold findTransfer at hf'
          rw [if_neg hk, hfr] at hf'
          rw [show t' = t from (Option.some.inj hf').symm]
        · rw [show handleBinaryChunk c ch ((k, u) :: rest) =
              (k, u) :: handleBinaryChunk c ch rest by
            simp [handleBinaryChunk, hc, hlt]] at hf'
          unfold findTransfer at hf'
          rw [if_neg hk] at hf'
          exact ih fid t t' hnd' hfr hf'

lemma handleBinaryChunk_received_le (c : String → Bool) (ch : List Nat) :
    ∀ l : List (String × InTransfer),
      (∀ q ∈ l, (q.2).received ≤ (q.2).size) →
      (∀ q ∈ l, (q.2).received < (q.2).size → (q.2).received + ch.length ≤ (q.2).size) →
      ∀ q ∈ handleBinaryChunk c ch l, (q.2).received ≤ (q.2).size := by
  intro l
  induction l with
  | nil =>
    intro _ _ q hq
    exact absurd hq (by simp [handleBinaryChunk])
  | cons a rest ih =>
    obtain ⟨k, u⟩ := a
    intro hb hcap q hq
    have hbr : ∀ q ∈ rest, (q.2).received ≤ (q.2).size :=
      fun q hq => hb q (List.mem_cons_of_mem _ hq)
    have hcr : ∀ q ∈ rest, (q.2).received < (q.2).size →
        (q.2).received + ch.length ≤ (q.2).size :=
      fun q hq => hcap q (List.mem_cons_of_mem _ hq)
    cases hc : c k with
    | true =>
      rw [show handleBinaryChunk c ch ((k, u) :: rest) = handleBinaryChunk c ch rest by
        simp [handleBinaryChunk, hc]] at hq
      exact ih hbr hcr q hq
    | false =>
      by_cases hlt : u.received < u.size
      · rw [show handleBinaryChunk c ch ((k, u) :: rest) = (k, applyChunk u ch) :: rest by
          simp [handleBinaryChunk, hc, hlt]] at hq
        rcases List.mem_cons.mp hq with h | h
        · rw [h]
          have hcku : u.received + ch.length ≤ u.size :=
            hcap (k, u) (List.mem_cons_self _ _) hlt
          show (applyChunk u ch).received ≤ (applyChunk u ch).size
          simp only [applyChunk]
          omega
        · exact hbr q h
      · rw [show handleBinaryChunk c ch ((k, u) :: rest) =
            (k, u) :: handleBinaryChunk c ch rest by
          simp [handleBinaryChunk, hc, hlt]] at hq
        rcases List.mem_cons.mp hq with h | h
        · rw [h]
          exact hb (k, u) (List.mem_cons_self _ _)
        · exact ih hbr hcr q h

/-- Concrete incomplete inbound transfer (4 bytes expected, none yet). -/
def inT1 : InTransfer := ⟨"b.bin", 4, 0, [], []⟩

/-- Concrete incomplete inbound transfer (10 bytes expected, none yet). -/
def inT2 : InTransfer := ⟨"big.bin", 10, 0, [], []⟩

/-- C9 counterexample: a transfer with meta.byteSize = 10 and received = 0
accepts a 16-byte chunk (handleBinaryChunk only checks received < size before
applying), leaving received = 16, which exceeds meta.byteSize. -/
theorem received_overshoots_size :
    (findTransfer "f" (handleBinaryChunk (fun _ => false) (List.replicate 16 0)
      [("f", inT2)])).map InTransfer.received = some 16 ∧ 10 < 16 := by
  exact ⟨rfl, by decide⟩

/-- C9 (amended): for every inbound transfer, chunk events never decrease the
`received` counter; and `received` stays at or below meta.byteSize provided
every applied chunk is no larger than the receiving transfer's remaining
bytes (as holds for the sender's own chunking) - the guard alone only checks
received < size before applying, so an oversized chunk can overshoot. -/
theorem received_monotone_bounded (c : String → Bool) (ch : List Nat)
    (l : List (String × InTransfer)) :
    (∀ fid t t', (l.map Prod.fst).Nodup → findTransfer fid l = some t →
      findTransfer fid (handleBinaryChunk c ch l) = some t' →
      t.received ≤ t'.received) ∧
    ((∀ q ∈ l, (q.2).received ≤ (q.2).size) →
      (∀ q ∈ l, (q.2).received < (q.2).size → (q.2).received + ch.length ≤ (q.2).size) →
      ∀ q ∈ handleBinaryChunk c ch l, (q.2).received ≤ (q.2).size) :=
  ⟨fun fid t t' hnd hf hf' => handleBinaryChunk_received_mono c ch l fid t t' hnd hf hf',
   fun hb hcap => handleBinaryChunk_received_le c ch l hb hcap⟩

/-- Witness for received_monotone_bounded on a single 4-byte transfer fed a
2-byte chunk. -/
theorem received_monotone_bounded_witness :
    inT1.received ≤ (applyChunk inT1 [0, 0]).received ∧
    (∀ q ∈ handleBinaryChunk (fun _ => false) [0, 0] [("g", inT1)],
      (q.2).received ≤ (q.2).size) :=
  ⟨(received_monotone_bounded (fun _ => false) [0, 0] [("g", inT1)]).1
      "g" inT1 (applyChunk inT1 [0, 0]) (by decide) (by decide) (by decide),
   (received_monotone_bounded (fun _ => false) [0, 0] [("g", inT1)]).2
      (by decide) (by decide)⟩

/-- C10: an incoming binary chunk carries no fileId; it is applied to the
first inbound transfer, in insertion order, whose received count is below its
declared size - cancelled entries ahead of it are dropped, byte-complete
entries ahead of it are skipped untouched, and all later transfers (hence any
later-registered incomplete transfer) are left unchanged. -/
theorem chunk_goes_to_first_unfinished (c : String → Bool) (ch : List Nat)
    (pre post : List (String × InTransfer)) (fid : String) (t : InTransfer)
    (hpre : ∀ q ∈ pre, c q.1 = true ∨ ¬ (q.2).received < (q.2).size)
    (hc : c fid = false) (ht : t.received < t.size) :
    handleBinaryChunk c ch (pre ++ (fid, t) :: post) =
      pre.filter (fun q => !(c q.1)) ++ (fid, applyChunk t ch) :: post := by
  induction pre with
  | nil => simp [handleBinaryChunk, hc, ht]
  | cons a rest ih =>
    obtain ⟨k, u⟩ := a
    have ha := hpre (k, u) (List.mem_cons_self _ _)
    have hrest : ∀ q ∈ rest, c q.1 = true ∨ ¬ (q.2).received < (q.2).size :=
      fun q hq => hpre q (List.mem_cons_of_mem _ hq)
    cases hck : c k with
    | true =>
      have hstep : handleBinaryChunk c ch (((k, u) :: rest) ++ (fid, t) :: post) =
          handleBinaryChunk c ch (rest ++ (fid, t) :: post) := by
        simp [handleBinaryChunk, hck]
      rw [hstep, ih hrest, List.filter_cons]
      simp [hck]
    | false =>
      have hge : ¬ u.received < u.size := by
        rcases ha with h | h
        · rw [hck] at h
          exact absurd h (by simp)
        · exact h
      have hstep : handleBinaryChunk c ch (((k, u) :: rest) ++ (fid, t) :: post) =
          (k, u) :: handleBinaryChunk c ch (rest ++ (fid, t) :: post) := by
        simp [handleBinaryChunk, hck, hge]
      rw [hstep, ih hrest, List.filter_cons]
      simp [hck]

/-- Witness for chunk_goes_to_first_unfinished: the byte-complete transfer
f0 is skipped, the chunk lands on g (the first incomplete transfer), and the
later incomplete transfer h is untouched. -/
theorem chunk_goes_to_first_unfinished_witness :
    handleBinaryChunk (fun _ => false) [7] [("f0", inT0), ("g", inT1), ("h", inT2)] =
      [("f0", inT0), ("g", applyChunk inT1 [7]), ("h", inT2)] := by
  have h := chunk_goes_to_first_unfinished (fun _ => false) [7]
    [("f0", inT0)] [("h", inT2)] "g" inT1 (by decide) rfl (by decide)
  simpa using h

/-
Outbound transfer control.  sendFileActual creates, per fileId, a control
object `{ paused, cancelled, subPaused, subCancelled, subChannels, ... }`;
`subChannels` keys are modelled as the insertion-ordered list of destination
ids still registered, and `subPaused` / `subCancelled` as Boolean-valued
functions on destination ids.  When a destination finishes all its chunks,
sendBatch deletes its entries (`delete ctrl.subPaused[targetId]` etc.).  The
control handlers in handleMessage mutate these flags; the
cancel-transfer-by-receiver handler additionally deletes the whole control
object when `Object.keys(control.subChannels).every(id =>
control.subCancelled[id] === true)`, which the post-Promise.all check in
sendFileActual (`if (!ctrl || ctrl.cancelled)`) then reads as a cancelled
transfer.
-/

structure OutControl where
  cancelled : Bool
  channels : List String
  subPaused : String → Bool
  subCancelled : String → Bool

/-- Completion cleanup in sendBatch once a destination received every chunk:
its key is removed from the control's sub-maps. -/
def completeTarget (tid : String) (c : OutControl) : OutControl :=
  { c with channels := c.channels.erase tid }

/-- Handler for `pause-transfer-by-receiver {fileId, receiverId}`: sets
`control.subPaused[msg.receiverId] = true`. -/
def recvPauseByReceiver (r : String) (c : OutControl) : OutControl :=
  { c with subPaused := Function.update c.subPaused r true }

/-- Handler for `resume-transfer-by-receiver {fileId, receiverId}`: sets
`control.subPaused[msg.receiverId] = false` and re-triggers that
destination's sendBatch. -/
def recvResumeByReceiver (r : String) (c : OutControl) : OutControl :=
  { c with subPaused := Function.update c.subPaused r false }

/-- Handler for `cancel-transfer-by-receiver {fileId, receiverId}`: sets
`control.subCancelled[msg.receiverId] = true`, then deletes the whole
control object when every remaining subChannels key is cancelled
(`allCancelled`); `none` models the deleted control. -/
def recvCancelByReceiver (r : String) (c : OutControl) : Option OutControl :=
  let c' : OutControl := { c with subCancelled := Function.update c.subCancelled r true }
  if c'.channels.all (fun i => c'.subCancelled i) then none else some c'

/-- Post-Promise.all terminal check in sendFileActual:
`const ctrl = transferControlRef.current[...]; if (!ctrl || ctrl.cancelled)`
takes the cancelled path (no chat record, no success log); otherwise the
success record is produced. -/
def successRecorded : Option OutControl → Bool
  | none => false
  | some c => !c.cancelled

/-- Fresh control for a two-destination fan-out, as initialised by
sendFileActual (all flags false). -/
def outC0 : OutControl := ⟨false, ["A", "B"], fun _ => false, fun _ => false⟩

/-- C4 failing input evaluated: with destinations A and B, A completes all its
chunks (its key is deleted from subChannels), then B's receiver sends
cancel-transfer-by-receiver; `allCancelled` ranges only over the remaining
key B, so the control object is deleted, and the post-Promise.all check then
reports the transfer as cancelled - no success record is produced even though
one sub-transfer completed.  Had the control survived, the record would have
been produced (second conjunct). -/
theorem completed_then_rest_cancelled_drops_record :
    successRecorded (recvCancelByReceiver "B" (completeTarget "A" outC0)) = false ∧
    successRecorded (some (completeTarget "A" outC0)) = true := by
  exact ⟨rfl, rfl⟩

/-- Effect of one sendBatch invocation on a destination's chunk counter, as a
function of that destination's own flags: a cancelled target resolves without
sending, a paused target returns without sending, otherwise up to 32 further
chunks go out (`for (let i = 0; i < 32 && chunkCount < totalChunksCount; i++)`). -/
def sendBatchProgress (cancelled paused : Bool) (chunkCount total : Nat) : Nat :=
  if cancelled then chunkCount
  else if paused then chunkCount
  else min total (chunkCount + 32)

/-- C6: handling a pause, resume, or cancel control message from destination A
mutates only A's per-destination state: for any other destination B, the
subPaused and subCancelled flags and the registered channel list are
unchanged (for cancel, provided some destination other than A is still live,
so the control object itself survives), and hence B's sendBatch chunk
progression is the same before and after. -/
theorem pause_resume_cancel_frame (c : OutControl) (A B : String) (hAB : B ≠ A) :
    ((recvPauseByReceiver A c).subPaused B = c.subPaused B ∧
     (recvPauseByReceiver A c).subCancelled B = c.subCancelled B ∧
     (recvPauseByReceiver A c).channels = c.channels) ∧
    ((recvResumeByReceiver A c).subPaused B = c.subPaused B ∧
     (recvResumeByReceiver A c).subCancelled B = c.subCancelled B ∧
     (recvResumeByReceiver A c).channels = c.channels) ∧
    (B ∈ c.channels → c.subCancelled B = false →
      ∃ c', recvCancelByReceiver A c = some c' ∧
        c'.subPaused B = c.subPaused B ∧ c'.subCancelled B = c.subCancelled B ∧
        c'.channels = c.channels) ∧
    (∀ s t, sendBatchProgress ((recvPauseByReceiver A c).subCancelled B)
        ((recvPauseByReceiver A c).subPaused B) s t =
      sendBatchProgress (c.subCancelled B) (c.subPaused B) s t) := by
  have hpB : Function.update c.subPaused A true B = c.subPaused B :=
    Function.update_noteq hAB true c.subPaused
  have hpB' : Function.update c.subPaused A false B = c.subPaused B :=
    Function.update_noteq hAB false c.subPaused
  have hcB : Function.update c.subCancelled A true B = c.subCancelled B :=
    Function.update_noteq hAB true c.subCancelled
  refine ⟨⟨hpB, rfl, rfl⟩, ⟨hpB', rfl, rfl⟩, ?_, ?_⟩
  · intro hBmem hBlive
    have hall : (c.channels.all fun i => Function.update c.subCancelled A true i) = false := by
      apply List.all_eq_false.mpr
      refine ⟨B, hBmem, ?_⟩
      rw [hcB, hBlive]
      simp
    refine ⟨{ c with subCancelled := Function.update c.subCancelled A true }, ?_, rfl, hcB, rfl⟩
    unfold recvCancelByReceiver
    simp only [hall]
    rfl
  · intro s t
    rw [show (recvPauseByReceiver A c).subPaused B = c.subPaused B from hpB]
    rfl

/-- Witness for pause_resume_cancel_frame: destination B of outC0 is live, so
cancelling A keeps the control alive and leaves B's flags untouched. -/
theorem pause_resume_cancel_frame_witness :
    (recvPauseByReceiver "A" outC0).subPaused "B" = outC0.subPaused "B" ∧
    (∃ c', recvCancelByReceiver "A" outC0 = some c' ∧
      c'.subPaused "B" = outC0.subPaused "B" ∧
      c'.subCancelled "B" = outC0.subCancelled "B" ∧
      c'.channels = outC0.channels) :=
  ⟨(pause_resume_cancel_frame outC0 "A" "B" (by decide)).1.1,
   (pause_resume_cancel_frame outC0 "A" "B" (by decide)).2.2.1 (by decide) rfl⟩

/-- High-water threshold set by sendBatch before each batch:
`if (totalChunksCount - chunkCount > 16) dc.bufferedAmountLowThreshold =
16 * chunkSize; else dc.bufferedAmountLowThreshold = 0;` (512 KiB at the
actual 32 KiB chunk size). -/
def sendBatchThreshold (totalCnt chunkCount chunkSize : Nat) : Nat :=
  if 16 < totalCnt - chunkCount then 16 * chunkSize else 0

/-- Number of chunks one streaming sendBatch invocation sends:
`for (let i = 0; i < 32 && chunkCount < totalChunksCount; i++)`. -/
def sendBatchChunksSent (totalCnt chunkCount : Nat) : Nat :=
  min 32 (totalCnt - chunkCount)

/-- C7 counterexample: with 20 chunks remaining - fewer than the batch size
32 - and the actual 32 KiB chunk size, the threshold is 512 KiB, not zero,
refuting that the threshold shrinks to zero exactly when fewer chunks remain
than the batch size. -/
theorem threshold_nonzero_below_batch_size :
    20 - 0 < 32 ∧ sendBatchThreshold 20 0 32768 = 524288 ∧
    sendBatchThreshold 20 0 32768 ≠ 0 := by
  refine ⟨by decide, by decide, by decide⟩

/-- C7 (amended): the flow-controlled loop sends up to 32 chunks per
invocation (exactly 32 while at least 32 remain), then relies on the
channel's buffer-drained signal against a high-water mark of 16 times the
chunk size; the threshold shrinks to zero exactly when at most 16 chunks
(half the batch size) remain, not when fewer than 32 remain. -/
theorem batch_size_and_threshold (total count chunkSize : Nat) (hcs : 0 < chunkSize) :
    sendBatchChunksSent total count ≤ 32 ∧
    (32 ≤ total - count → sendBatchChunksSent total count = 32) ∧
    (sendBatchThreshold total count chunkSize = 0 ↔ total - count ≤ 16) := by
  refine ⟨Nat.min_le_left _ _, ?_, ?_⟩
  · intro h
    unfold sendBatchChunksSent
    omega
  · unfold sendBatchThreshold
    split
    · next h => constructor <;> omega
    · next h => constructor <;> omega

/-- Witness for batch_size_and_threshold at the actual 32 KiB chunk size. -/
theorem batch_size_and_threshold_witness :
    sendBatchChunksSent 100 0 ≤ 32 ∧
    (sendBatchThreshold 100 90 32768 = 0 ↔ 100 - 90 ≤ 16) :=
  ⟨(batch_size_and_threshold 100 0 32768 (by decide)).1,
   (batch_size_and_threshold 100 90 32768 (by decide)).2.2⟩

/-
Fan-out start.  sendFileToChannel returns a promise that immediately rejects
with `new Error('DataChannel not open')` when `dc.readyState !== 'open'`
(the file-start metadata is sent only on an open channel); sendFileActual
awaits `Promise.all` over all targets, so one rejection rejects the
aggregate and the success-record code after the await never runs.
-/

/-- Start phase of sendFileToChannel for one destination, keyed by whether
its channel is open. -/
def sendFileToChannelStart (channelOpen : Bool) : Except String Unit :=
  if channelOpen then Except.ok () else Except.error "DataChannel not open"

/-- Promise.all over the per-destination promises: rejects with the first
rejection, resolves only when all resolve. -/
def promiseAll : List (Except String Unit) → Except String Unit
  | [] => Except.ok ()
  | Except.ok _ :: rest => promiseAll rest
  | Except.error e :: _ => Except.error e

/-- Aggregate start result of sendFileActual's fan-out over targets given as
(destinationId, channel-open) pairs. -/
def fanoutStart (targets : List (String × Bool)) : Except String Unit :=
  promiseAll (targets.map fun t => sendFileToChannelStart t.2)

/-- C8 counterexample: destination B's channel is not open, so its
sub-transfer rejects and the aggregated Promise.all rejects even though
sibling A's start succeeded - the success-record code after the await is
skipped, refuting that siblings still produce the success record. -/
theorem closed_channel_poisons_fanout :
    fanoutStart [("A", true), ("B", false)] = Except.error "DataChannel not open" ∧
    sendFileToChannelStart true = Except.ok () := by
  exact ⟨rfl, rfl⟩

/-- C8 (amended): a destination whose channel is not open fails with
'DataChannel not open'; every sibling with an open channel still starts
successfully (its streaming closure is unaffected), but the aggregate
Promise.all rejects, so the transfer is reported failed and no success
record is produced; only when every target's channel is open does the
aggregate succeed. -/
theorem fanout_start_behavior (targets : List (String × Bool)) :
    ((∀ t ∈ targets, t.2 = true) → fanoutStart targets = Except.ok ()) ∧
    ((∃ t ∈ targets, t.2 = false) →
      fanoutStart targets = Except.error "DataChannel not open") ∧
    (∀ t ∈ targets, t.2 = true → sendFileToChannelStart t.2 = Except.ok ()) := by
  refine ⟨?_, ?_, ?_⟩
  · intro hall
    induction targets with
    | nil => rfl
    | cons a rest ih =>
      have ha : a.2 = true := hall a (List.mem_cons_self _ _)
      have hrest : ∀ t ∈ rest, t.2 = true := fun t ht => hall t (List.mem_cons_of_mem _ ht)
      show promiseAll (sendFileToChannelStart a.2 :: rest.map fun t => sendFileToChannelStart t.2) =
        Except.ok ()
      rw [ha]
      exact ih hrest
  · intro hex
    induction targets with
    | nil =>
      exact absurd hex (by simp)
    | cons a rest ih =>
      show promiseAll (sendFileToChannelStart a.2 :: rest.map fun t => sendFileToChannelStart t.2) =
        Except.error "DataChannel not open"
      cases ha : a.2 with
      | false =>
        rw [show sendFileToChannelStart false = Except.error "DataChannel not open" from rfl]
        rfl
      | true =>
        have hex' : ∃ t ∈ rest, t.2 = false := by
          rcases hex with ⟨t, ht, hf⟩
          rcases List.mem_cons.mp ht with h | h
          · rw [h] at hf
            rw [hf] at ha
            exact absurd ha (by simp)
          · exact ⟨t, h, hf⟩
        rw [show sendFileToChannelStart true = Except.ok () from rfl]
        exact ih hex'
  · intro t _ ht
    rw [ht]
    rfl

/-- Witness for fanout_start_behavior on one open and one closed target. -/
theorem fanout_start_behavior_witness :
    fanoutStart [("A", true)] = Except.ok () ∧
    fanoutStart [("A", true), ("B", false)] = Except.error "DataChannel not open" :=
  ⟨(fanout_start_behavior [("A", true)]).1 (by decide),
   (fanout_start_behavior [("A", true), ("B", false)]).2.1
     ⟨("B", false), by decide, rfl⟩⟩

/-
Transfer queue.  sendFile pushes the file onto fileQueueRef and starts
processFileQueue when isSendingFileRef is clear; processFileQueue returns at
once when it is set or the queue is empty, otherwise it sets the flag,
shifts the head, awaits sendFileActual, and in the `finally` clause clears
the flag and re-invokes itself while items remain - also when sendFileActual
threw (the failure is logged and the queue advances).  The state is
modelled as the pending queue, the list of currently-sending items (the
code's single shifted item guarded by isSendingFileRef), and the processed
items in completion order each tagged with its outcome.
-/

structure QueueState where
  queue : List String
  active : List String
  processed : List (String × Bool)
deriving Repr, DecidableEq

/-- Events driving the queue: a sendFile call enqueues a file; a finish event
is sendFileActual settling for the active item, successfully or not. -/
inductive QueueEvent where
  | enqueue : String → QueueEvent
  | finish : Bool → QueueEvent
deriving Repr, DecidableEq

/-- Dequeue step of processFileQueue: when items remain, shift the head and
make it the active (sending) item. -/
def startNext (st : QueueState) : QueueState :=
  match st.queue with
  | [] => st
  | f :: rest => { st with queue := rest, active := [f] }

/-- One event transition: sendFile appends and, when nothing is sending,
processFileQueue shifts the head; a finish records the active item's outcome
and the finally clause advances to the next queued item. -/
def queueStep (st : QueueState) : QueueEvent → QueueState
  | QueueEvent.enqueue f =>
    let st' : QueueState := { st with queue := st.queue ++ [f] }
    if st.active = [] then startNext st' else st'
  | QueueEvent.finish ok =>
    match st.active with
    | [] => st
    | a :: _ =>
      startNext { st with active := [], processed := st.processed ++ [(a, ok)] }

/-- Run a sequence of queue events. -/
def queueRun (st : QueueState) (evs : List QueueEvent) : QueueState :=
  evs.foldl queueStep st

/-- Names enqueued by a sequence of events, in order. -/
def enqueuedNames (evs : List QueueEvent) : List String :=
  evs.filterMap fun e =>
    match e with
    | QueueEvent.enqueue f => some f
    | QueueEvent.finish _ => none

/-- Initial queue state. -/
def initQueue : QueueState := ⟨[], [], []⟩

lemma startNext_active_le (st : QueueState) (h : st.active.length ≤ 1) :
    (startNext st).active.length ≤ 1 := by
  obtain ⟨q, act, pr⟩ := st
  cases q with
  | nil => exact h
  | cons f rest => exact le_rfl

lemma queueStep_active_le (st : QueueState) (e : QueueEvent) (h : st.active.length ≤ 1) :
    (queueStep st e).active.length ≤ 1 := by
  obtain ⟨q, act, pr⟩ := st
  cases e with
  | enqueue f =>
    cases act with
    | nil => exact startNext_active_le ⟨q ++ [f], [], pr⟩ (by simp)
    | cons a rest => exact h
  | finish ok =>
    cases act with
    | nil => exact h
    | cons a rest => exact startNext_active_le ⟨q, [], pr ++ [(a, ok)]⟩ (by simp)

lemma startNext_pipeline (st : QueueState) (h : st.active = []) :
    (startNext st).processed = st.processed ∧
    (startNext st).active ++ (startNext st).queue = st.queue := by
  obtain ⟨q, act, pr⟩ := st
  change act = [] at h
  subst h
  cases q with
  | nil => exact ⟨rfl, rfl⟩
  | cons f rest => exact ⟨rfl, rfl⟩

lemma enqueuedNames_cons (e : QueueEvent) (evs : List QueueEvent) :
    enqueuedNames (e :: evs) = enqueuedNames [e] ++ enqueuedNames evs := by
  cases e <;> simp [enqueuedNames]

lemma queueStep_pipeline (st : QueueState) (e : QueueEvent) (h : st.active.length ≤ 1) :
    (queueStep st e).processed.map Prod.fst ++ (queueStep st e).active ++
      (queueStep st e).queue =
    (st.processed.map Prod.fst ++ st.active ++ st.queue) ++ enqueuedNames [e] := by
  obtain ⟨q, act, pr⟩ := st
  cases e with
  | enqueue f =>
    cases act with
    | nil =>
      have hs := startNext_pipeline ⟨q ++ [f], [], pr⟩ rfl
      show (startNext ⟨q ++ [f], [], pr⟩).processed.map Prod.fst ++
          (startNext ⟨q ++ [f], [], pr⟩).active ++ (startNext ⟨q ++ [f], [], pr⟩).queue =
        (pr.map Prod.fst ++ [] ++ q) ++ enqueuedNames [QueueEvent.enqueue f]
      rw [hs.1, List.append_assoc (pr.map Prod.fst), hs.2]
      simp [enqueuedNames]
    | cons a rest =>
      show pr.map Prod.fst ++ (a :: rest) ++ (q ++ [f]) =
        (pr.map Prod.fst ++ (a :: rest) ++ q) ++ enqueuedNames [QueueEvent.enqueue f]
      simp [enqueuedNames, List.append_assoc]
  | finish ok =>
    cases act with
    | nil =>
      show pr.map Prod.fst ++ [] ++ q =
        (pr.map Prod.fst ++ [] ++ q) ++ enqueuedNames [QueueEvent.finish ok]
      simp [enqueuedNames]
    | cons a rest =>
      have hrest : rest = [] := by
        simp only [List.length_cons] at h
        simpa using Nat.le_of_succ_le_succ h
      subst hrest
      have hs := startNext_pipeline ⟨q, [], pr ++ [(a, ok)]⟩ rfl
      show (startNext ⟨q, [], pr ++ [(a, ok)]⟩).processed.map Prod.fst ++
          (startNext ⟨q, [], pr ++ [(a, ok)]⟩).active ++
          (startNext ⟨q, [], pr ++ [(a, ok)]⟩).queue =
        (pr.map Prod.fst ++ [a] ++ q) ++ enqueuedNames [QueueEvent.finish ok]
      rw [hs.1, List.append_assoc ((pr ++ [(a, ok)]).map Prod.fst), hs.2]
      simp [enqueuedNames, List.append_assoc]

lemma queueRun_invariant (evs : List QueueEvent) :
    ∀ st : QueueState, st.active.length ≤ 1 →
      (queueRun st evs).active.length ≤ 1 ∧
      (queueRun st evs).processed.map Prod.fst ++ (queueRun st evs).active ++
          (queueRun st evs).queue =
        (st.processed.map Prod.fst ++ st.active ++ st.queue) ++ enqueuedNames evs := by
  induction evs with
  | nil =>
    intro st h
    exact ⟨h, by simp [queueRun, enqueuedNames]⟩
  | cons e rest ih =>
    intro st h
    have h1 := queueStep_active_le st e h
    have h2 := queueStep_pipeline st e h
    have h3 := ih (queueStep st e) h1
    have hrun : queueRun st (e :: rest) = queueRun (queueStep st e) rest := rfl
    refine ⟨by rw [hrun]; exact h3.1, ?_⟩
    rw [hrun, h3.2, h2, enqueuedNames_cons, List.append_assoc]
    cases e <;> simp [enqueuedNames]

lemma enqueueAll_nonempty_active (fs : List String) :
    ∀ (q : List String) (a : String) (pr : List (String × Bool)),
      queueRun ⟨q, [a], pr⟩ (fs.map QueueEvent.enqueue) = ⟨q ++ fs, [a], pr⟩ := by
  induction fs with
  | nil => intro q a pr; simp [queueRun]
  | cons f rest ih =>
    intro q a pr
    have hstep : queueStep ⟨q, [a], pr⟩ (QueueEvent.enqueue f) = ⟨q ++ [f], [a], pr⟩ := rfl
    show queueRun (queueStep ⟨q, [a], pr⟩ (QueueEvent.enqueue f))
        (rest.map QueueEvent.enqueue) = ⟨q ++ f :: rest, [a], pr⟩
    rw [hstep, ih (q ++ [f]) a pr]
    simp

lemma finishAll (q : List String) :
    ∀ (a : String) (pr : List (String × Bool)),
      queueRun ⟨q, [a], pr⟩ (List.replicate (q.length + 1) (QueueEvent.finish true)) =
        ⟨[], [], pr ++ (a :: q).map (fun f => (f, true))⟩ := by
  induction q with
  | nil => intro a pr; rfl
  | cons b rest ih =>
    intro a pr
    have hrep : List.replicate ((b :: rest).length + 1) (QueueEvent.finish true) =
        QueueEvent.finish true :: List.replicate (rest.length + 1) (QueueEvent.finish true) := rfl
    rw [hrep]
    have hstep : queueStep ⟨b :: rest, [a], pr⟩ (QueueEvent.finish true) =
        ⟨rest, [b], pr ++ [(a, true)]⟩ := rfl
    show queueRun (queueStep ⟨b :: rest, [a], pr⟩ (QueueEvent.finish true))
        (List.replicate (rest.length + 1) (QueueEvent.finish true)) =
      ⟨[], [], pr ++ (a :: b :: rest).map (fun f => (f, true))⟩
    rw [hstep, ih b (pr ++ [(a, true)])]
    simp

/-- C5: at most one locally originated upload is active at any instant (the
isSendingFileRef guard); across any interleaving of enqueues and
completions, the processed-active-pending pipeline preserves exact enqueue
order, so files enqueued F1, F2, F3 and never cancelled complete in FIFO
order; enqueuing any list of files and letting each finish successfully
processes exactly that list in order; and a failing item does not stall the
queue - the next items are still dequeued and processed after the failure. -/
theorem queue_fifo_one_active :
    (∀ evs : List QueueEvent, (queueRun initQueue evs).active.length ≤ 1) ∧
    (∀ evs : List QueueEvent,
      (queueRun initQueue evs).processed.map Prod.fst ++ (queueRun initQueue evs).active ++
        (queueRun initQueue evs).queue = enqueuedNames evs) ∧
    (∀ fs : List String,
      queueRun initQueue (fs.map QueueEvent.enqueue ++
          List.replicate fs.length (QueueEvent.finish true)) =
        ⟨[], [], fs.map (fun f => (f, true))⟩) ∧
    ((queueRun initQueue [QueueEvent.enqueue "F1", QueueEvent.enqueue "F2",
        QueueEvent.enqueue "F3", QueueEvent.finish false, QueueEvent.finish true,
        QueueEvent.finish true]).processed =
      [("F1", false), ("F2", true), ("F3", true)]) := by
  refine ⟨?_, ?_, ?_, by rfl⟩
  · intro evs
    exact (queueRun_invariant evs initQueue (by simp [initQueue])).1
  · intro evs
    have h := (queueRun_invariant evs initQueue (by simp [initQueue])).2
    simpa [initQueue] using h
  · intro fs
    cases fs with
    | nil => rfl
    | cons f rest =>
      have hqr : queueRun initQueue ((f :: rest).map QueueEvent.enqueue ++
          List.replicate (f :: rest).length (QueueEvent.finish true)) =
        queueRun (queueRun initQueue ((f :: rest).map QueueEvent.enqueue))
          (List.replicate (f :: rest).length (QueueEvent.finish true)) := by
        simp [queueRun, List.foldl_append]
      rw [hqr]
      have h1 : queueRun initQueue ((f :: rest).map QueueEvent.enqueue) = ⟨rest, [f], []⟩ := by
        show queueRun (queueStep initQueue (QueueEvent.enqueue f))
          (rest.map QueueEvent.enqueue) = ⟨rest, [f], []⟩
        have hstep : queueStep initQueue (QueueEvent.enqueue f) = ⟨[], [f], []⟩ := rfl
        rw [hstep, enqueueAll_nonempty_active rest [] f []]
        simp
      rw [h1]
      rw [show (f :: rest).length = rest.length + 1 from rfl, finishAll rest f []]
      simp
